import Mathlib

/-!
# Verification of the dead-air audio-analysis pipeline

Shallow embedding of `packages/visualizer-poc/scripts/analyze.py` and
`packages/visualizer-poc/scripts/analyze_show.py`.  Python floats are modelled
by `ℚ`, numpy arrays by `List ℚ` (2-D arrays by `List (List ℚ)`), fallible
code by `Option`/`Except`.  Constants `SR = 22050`, `HOP_LENGTH = 735`,
`FPS = 30` are taken verbatim from `analyze.py`.
-/

namespace DeadAir

/-- Python's `round()` on an exact value: round half to even (banker's
rounding), yielding an integer. -/
def pythonRound (q : ℚ) : ℤ :=
  let f := ⌊q⌋
  let r := q - f
  if r < 1/2 then f
  else if 1/2 < r then f + 1
  else if 2 ∣ f then f else f + 1

/-- Python's `round(q, d)`: round to `d` decimal places. -/
def roundTo (d : ℕ) (q : ℚ) : ℚ :=
  (pythonRound (q * 10 ^ d) : ℚ) / 10 ^ d

/-- `FPS` constant of `analyze.py`. -/
def FPS : ℕ := 30

/-- `n_frames = int(np.ceil(duration * FPS))` in `analyze_track`
(`analyze.py` line 121). -/
def nFrames (duration : ℚ) : ℕ := (⌈duration * (FPS : ℚ)⌉).toNat

/-- Minimum of a list, as `arr.min()` of a nonempty numpy array
(`0` only for the empty list, on which numpy raises). -/
def listMin : List ℚ → ℚ
  | [] => 0
  | a :: rest => rest.foldl min a

/-- Maximum of a list, as `arr.max()` of a nonempty numpy array. -/
def listMax : List ℚ → ℚ
  | [] => 0
  | a :: rest => rest.foldl max a

/-- The epsilon of `normalize` in `analyze.py` line 33 (`1e-10`). -/
def normEps : ℚ := 1 / 10000000000

/-- `normalize` from `analyze.py` lines 30–35: min-max normalize to `[0,1]`,
returning the zero vector when the range is degenerate.  `none` models the
numpy error on an empty array (`arr.min()` of an empty array raises). -/
def normalize (arr : List ℚ) : Option (List ℚ) :=
  match arr with
  | [] => none
  | a :: rest =>
    if listMax (a :: rest) - listMin (a :: rest) < normEps then
      some (List.replicate (a :: rest).length 0)
    else
      some ((a :: rest).map fun x =>
        (x - listMin (a :: rest)) / (listMax (a :: rest) - listMin (a :: rest)))

/-- `pad_or_trim` from `analyze.py` lines 180–183: truncate to `len` if the
array is at least that long, otherwise edge-pad by repeating the last value.
`none` models the numpy error of edge-padding an empty array. -/
def pad_or_trim {α : Type} (arr : List α) (len : ℕ) : Option (List α) :=
  if len ≤ arr.length then some (arr.take len)
  else
    match arr.getLast? with
    | some v => some (arr ++ List.replicate (len - arr.length) v)
    | none => none

/-- Sequence a list of `Option`s produced by `f`; used to model applying
`pad_or_trim` to every row of a 2-D array. -/
def optionMapList {α β : Type} (f : α → Option β) : List α → Option (List β)
  | [] => some []
  | a :: l =>
    match f a, optionMapList f l with
    | some b, some l' => some (b :: l')
    | _, _ => none

/-- `pad_or_trim_2d` from `analyze.py` lines 185–188: align a 2-D array along
the frame axis (axis 1); `np.pad(..., mode="edge")` repeats each row's last
value. -/
def pad_or_trim_2d {α : Type} (arr : List (List α)) (len : ℕ) :
    Option (List (List α)) :=
  optionMapList (fun row => pad_or_trim row len) arr

section MinMaxLemmas

variable {α : Type} [LinearOrder α]

theorem foldl_min_le_self (l : List α) (a : α) : l.foldl min a ≤ a := by
  induction l generalizing a with
  | nil => exact le_refl a
  | cons b l ih => exact le_trans (ih (min a b)) (min_le_left a b)

theorem foldl_min_le_mem (l : List α) (a x : α) (hx : x ∈ l) :
    l.foldl min a ≤ x := by
  induction l generalizing a with
  | nil => cases hx
  | cons b l ih =>
    rcases List.mem_cons.mp hx with rfl | hx
    · exact le_trans (foldl_min_le_self l (min a x)) (min_le_right a x)
    · exact ih (min a b) hx

theorem self_le_foldl_max (l : List α) (a : α) : a ≤ l.foldl max a := by
  induction l generalizing a with
  | nil => exact le_refl a
  | cons b l ih => exact le_trans (le_max_left a b) (ih (max a b))

theorem mem_le_foldl_max (l : List α) (a x : α) (hx : x ∈ l) :
    x ≤ l.foldl max a := by
  induction l generalizing a with
  | nil => cases hx
  | cons b l ih =>
    rcases List.mem_cons.mp hx with rfl | hx
    · exact le_trans (le_max_right a x) (self_le_foldl_max l (max a x))
    · exact ih (max a b) hx

end MinMaxLemmas

theorem listMin_le (arr : List ℚ) (x : ℚ) (hx : x ∈ arr) : listMin arr ≤ x := by
  cases arr with
  | nil => cases hx
  | cons a rest =>
    rcases List.mem_cons.mp hx with rfl | hx
    · exact foldl_min_le_self rest x
    · exact foldl_min_le_mem rest a x hx

theorem le_listMax (arr : List ℚ) (x : ℚ) (hx : x ∈ arr) : x ≤ listMax arr := by
  cases arr with
  | nil => cases hx
  | cons a rest =>
    rcases List.mem_cons.mp hx with rfl | hx
    · exact self_le_foldl_max rest x
    · exact mem_le_foldl_max rest a x hx

theorem listMin_replicate (n : ℕ) (c : ℚ) : listMin (List.replicate (n + 1) c) = c := by
  simp only [List.replicate, listMin]
  induction n with
  | zero => rfl
  | succ m ih =>
    simp only [List.replicate, List.foldl, min_self] at ih ⊢
    exact ih

theorem listMax_replicate (n : ℕ) (c : ℚ) : listMax (List.replicate (n + 1) c) = c := by
  simp only [List.replicate, listMax]
  induction n with
  | zero => rfl
  | succ m ih =>
    simp only [List.replicate, List.foldl, max_self] at ih ⊢
    exact ih

/-! ## Section detection (`detect_sections`, `analyze.py` lines 46–109) -/

/-- `seg_hop = int(5 * FPS)` — 150 frames per coarse window. -/
def segHop : ℕ := 5 * FPS

/-- `n_segs = max(1, n_frames // seg_hop)` (`analyze.py` line 53). -/
def nSegs (nF : ℕ) : ℕ := max 1 (nF / segHop)

/-- The cluster-count computation of `analyze.py` lines 64–66:
`n_clusters = min(max(3, n_segs // 4), 12)`, then
`if n_segs <= n_clusters: n_clusters = max(2, n_segs - 1)`. -/
def nClusters (nSegs : ℕ) : ℕ :=
  let t := min (max 3 (nSegs / 4)) 12
  if nSegs ≤ t then max 2 (nSegs - 1) else t

/-- The section energy tiers of `analyze.py` lines 84 and 99. -/
inductive EnergyTier where
  | low
  | mid
  | high
deriving DecidableEq

/-- `"high" if avg_energy > 0.5 else ("mid" if avg_energy > 0.25 else "low")`. -/
def energyLabel (avg : ℚ) : EnergyTier :=
  if 1/2 < avg then .high else if 1/4 < avg then .mid else .low

/-- One section record built by `detect_sections`: a half-open frame range,
the ordinal label index (`section_{k}`), the energy tier and the rounded
mean RMS. -/
structure Section where
  frameStart : ℕ
  frameEnd : ℕ
  label : ℕ
  energy : EnergyTier
  avgEnergy : ℚ
deriving DecidableEq

/-- `avg_energy = float(rms_norm[a:b].mean()) if b > a else 0.0`
(Python slicing truncates at the list's end). -/
def sliceMean (rms : List ℚ) (a b : ℕ) : ℚ :=
  if a < b then
    let slice := (rms.drop a).take (b - a)
    slice.sum / (slice.length : ℚ)
  else 0

/-- Build the section record appended at `analyze.py` lines 85–91 / 100–106. -/
def buildSection (rms : List ℚ) (k a b : ℕ) : Section :=
  let avg := sliceMean rms a b
  { frameStart := a, frameEnd := b, label := k,
    energy := energyLabel avg, avgEnergy := roundTo 3 avg }

/-- The label-merging loop of `detect_sections` (`analyze.py` lines 75–106):
walk labels `rest` at window index `i`, with the open section's first window
`secStart`, its label `cur`, and `k` sections already closed.  The final
section always closes at `nF`. -/
def mergeAux (nF : ℕ) (rms : List ℚ) :
    List ℤ → ℕ → ℤ → ℕ → ℕ → List Section
  | [], _, _, secStart, k => [buildSection rms k (secStart * segHop) nF]
  | l :: rest, i, cur, secStart, k =>
    if l = cur then mergeAux nF rms rest (i + 1) cur secStart k
    else
      buildSection rms k (secStart * segHop) (min (i * segHop) nF) ::
        mergeAux nF rms rest (i + 1) l i (k + 1)

/-- `detect_sections` given the outcome `labels` of the clustering step.
The clustering itself (sklearn `AgglomerativeClustering` over averaged MFCC
windows) is an external routine; its outcome is any per-window labeling, so it
enters as a parameter constrained to have one label per window.  `none` models
the sklearn `ValueError` raised when `n_clusters` exceeds the number of
samples (windows), and an outcome of the wrong shape. -/
def detect_sections (nF : ℕ) (rms : List ℚ) (labels : List ℤ) :
    Option (List Section) :=
  if labels.length = nSegs nF ∧ nClusters (nSegs nF) ≤ nSegs nF then
    match labels with
    | [] => none
    | l :: rest => some (mergeAux nF rms rest 1 l 0 0)
  else none

/-! ## Per-frame assembly (`analyze_track`, `analyze.py` lines 112–242) -/

/-- One serialized frame record (`analyze.py` lines 208–220). -/
structure FeatureFrame where
  rms : ℚ
  centroid : ℚ
  onset : ℚ
  beat : Bool
  sub : ℚ
  low : ℚ
  mid : ℚ
  high : ℚ
  chroma : List ℚ
  contrast : List ℚ
  flatness : ℚ
deriving DecidableEq

/-- The native (pre-alignment) feature streams produced by the extractors of
`analyze.py` lines 124–177, after their per-stream normalization. -/
structure RawStreams where
  rms : List ℚ
  cent : List ℚ
  onset : List ℚ
  sub : List ℚ
  low : List ℚ
  mid : List ℚ
  high : List ℚ
  flatness : List ℚ
  chroma : List (List ℚ)
  contrast : List (List ℚ)
  beats : List ℕ

/-- The frame record built at index `i` (`analyze.py` lines 208–220): scalars
rounded to 4 decimal places, the 12 chroma and 7 contrast elements to 3,
`beat` iff `i` is in the beat set. -/
def buildFrame (i : ℕ) (rms cent onset sub low mid high flat : List ℚ)
    (chroma contrast : List (List ℚ)) (beats : List ℕ) : FeatureFrame :=
  { rms := roundTo 4 (rms.getD i 0),
    centroid := roundTo 4 (cent.getD i 0),
    onset := roundTo 4 (onset.getD i 0),
    beat := beats.contains i,
    sub := roundTo 4 (sub.getD i 0),
    low := roundTo 4 (low.getD i 0),
    mid := roundTo 4 (mid.getD i 0),
    high := roundTo 4 (high.getD i 0),
    chroma := (List.range 12).map fun c => roundTo 3 ((chroma.getD c []).getD i 0),
    contrast := (List.range 7).map fun c => roundTo 3 ((contrast.getD c []).getD i 0),
    flatness := roundTo 4 (flat.getD i 0) }

/-- The alignment + frame-building part of `analyze_track` (`analyze.py`
lines 190–199 and 206–220): every 1-D stream is `pad_or_trim`-ed and every
2-D stream `pad_or_trim_2d`-ed to `n_frames = ceil(duration * FPS)`, then one
`FeatureFrame` is emitted per `i in range(n_frames)`. -/
def trackFrames (duration : ℚ) (raw : RawStreams) : Option (List FeatureFrame) :=
  match pad_or_trim raw.rms (nFrames duration),
      pad_or_trim raw.cent (nFrames duration),
      pad_or_trim raw.onset (nFrames duration),
      pad_or_trim raw.sub (nFrames duration),
      pad_or_trim raw.low (nFrames duration),
      pad_or_trim raw.mid (nFrames duration),
      pad_or_trim raw.high (nFrames duration),
      pad_or_trim raw.flatness (nFrames duration),
      pad_or_trim_2d raw.chroma (nFrames duration),
      pad_or_trim_2d raw.contrast (nFrames duration) with
  | some rms, some cent, some onset, some sub, some low, some mid, some high,
      some flat, some ch, some co =>
    some ((List.range (nFrames duration)).map fun i =>
      buildFrame i rms cent onset sub low mid high flat ch co raw.beats)
  | _, _, _, _, _, _, _, _, _, _ => none

/-- The serialized `meta` object (`analyze.py` lines 223–232): `duration`
rounded to 2 decimal places, `tempo` to 1, and the constants `fps`, `sr`,
`hopLength` verbatim. -/
structure TrackMeta where
  source : String
  duration : ℚ
  fps : ℕ
  sr : ℕ
  hopLength : ℕ
  totalFrames : ℕ
  tempo : ℚ
  sections : List Section
deriving DecidableEq

/-- Build the `meta` object of the per-track output. -/
def mkMeta (src : String) (duration tempoVal : ℚ) (n : ℕ)
    (sections : List Section) : TrackMeta :=
  { source := src, duration := roundTo 2 duration, fps := FPS, sr := 22050,
    hopLength := 735, totalFrames := n, tempo := roundTo 1 tempoVal,
    sections := sections }

/-- The error condition of the Signal Loader: the missing/undecodable-file
failure of `analyze_track` (`analyze.py` lines 114–116, `sys.exit(1)` on a
missing file). -/
inductive AudioLoadError where
  | fileNotFound
deriving DecidableEq

/-- The entry guard of `analyze_track` (`analyze.py` lines 112–116): when the
audio file does not exist the invocation fails (modelled as an `Except`
error); otherwise the pipeline runs and yields the track's
`(totalFrames, duration)` metadata. -/
def analyze_track (audioExists : Bool) (result : ℕ × ℚ) :
    Except AudioLoadError (ℕ × ℚ) :=
  if audioExists then .ok result else .error .fileNotFound

/-! ## Show batch runner (`analyze_show.py`, `main`, lines 35–127) -/

/-- One song of the setlist together with what `analyze_track` would produce
for its audio (`meta.totalFrames` and the already-rounded `meta.duration`);
`audioPresent` is `audio_path.exists()`. -/
structure SongInput where
  trackId : String
  audioPresent : Bool
  frames : ℕ
  duration : ℚ
deriving DecidableEq

/-- One record of `timeline_tracks` (`analyze_show.py` lines 75–81 and
98–103).  The missing placeholder carries `totalFrames = 0` and
`missing = True`; regular entries have no `missing` key, modelled as
`missing = false`. -/
structure TimelineEntry where
  trackId : String
  globalFrameStart : ℕ
  globalFrameEnd : ℕ
  totalFrames : ℕ
  missing : Bool
deriving DecidableEq

/-- The persisted per-track analysis files `data/tracks/{id}-analysis.json`:
for a track id, `none` when no file exists, otherwise the stored
`(meta.totalFrames, meta.duration)`. -/
def Store : Type := String → Option (ℕ × ℚ)

/-- No per-track file persisted yet. -/
def emptyStore : Store := fun _ => none

/-- The show timeline object (`analyze_show.py` lines 109–114). -/
structure ShowTimeline where
  date : String
  totalFrames : ℕ
  totalDuration : ℚ
  tracks : List TimelineEntry
deriving DecidableEq

/-- The per-song loop of `main` (`analyze_show.py` lines 66–106), carrying
`global_offset` and `total_duration`.  Per song, in order: (1) missing audio
→ placeholder entry, nothing advances, `continue`; (2) `resume` on and a
persisted file exists → its metadata is loaded, nothing recomputed or
written; (3) otherwise `analyze_track` runs and persists its output (the
store gains the song's metadata).  Returns the entries, the final offset,
the accumulated duration, and the final store. -/
def processSongs (resume : Bool) :
    Store → List SongInput → ℕ → ℚ → List TimelineEntry × ℕ × ℚ × Store
  | store, [], offset, dur => ([], offset, dur, store)
  | store, s :: rest, offset, dur =>
    if s.audioPresent then
      match (if resume then store s.trackId else none) with
      | some (tf, td) =>
        let r := processSongs resume store rest (offset + tf) (dur + td)
        (⟨s.trackId, offset, offset + tf, tf, false⟩ :: r.1, r.2)
      | none =>
        let store' : Store :=
          fun id => if id = s.trackId then some (s.frames, s.duration) else store id
        let r := processSongs resume store' rest (offset + s.frames) (dur + s.duration)
        (⟨s.trackId, offset, offset + s.frames, s.frames, false⟩ :: r.1, r.2)
    else
      let r := processSongs resume store rest offset dur
      (⟨s.trackId, offset, offset, 0, true⟩ :: r.1, r.2)

/-- `main` of `analyze_show.py`: run the per-song loop from offset 0 and
duration 0 and write the show timeline (`totalDuration` rounded to 2 decimal
places, line 112). -/
def buildShow (resume : Bool) (store : Store) (date : String)
    (songs : List SongInput) : ShowTimeline × Store :=
  let r := processSongs resume store songs 0 0
  ({ date := date, totalFrames := r.2.1, totalDuration := roundTo 2 r.2.2.1,
     tracks := r.1 }, r.2.2.2)

/-- Modelled from the spec (§4.6 step 3) for comparison with the code's
`nClusters`: "Target cluster count: `clamp(round(numWindows / 4), 3, 12)`,
reduced further if fewer windows than target clusters exist
(`max(2, numWindows - 1)`)." -/
def specClusterCount (n : ℕ) : ℕ :=
  let t := (max 3 (min (pythonRound ((n : ℚ) / 4)) 12)).toNat
  if n < t then max 2 (n - 1) else t

/-- Transitivity instance for ordering sections by `frameStart`. -/
def sectionLeTrans : IsTrans Section (fun a b => a.frameStart ≤ b.frameStart) :=
  ⟨fun _ _ _ hab hbc => le_trans hab hbc⟩

/-- Concrete native streams used to exercise `trackFrames`. -/
def wRaw : RawStreams :=
  { rms := [0], cent := [0], onset := [0], sub := [0], low := [0], mid := [0],
    high := [0], flatness := [0], chroma := [], contrast := [], beats := [] }

/-- The frame list `trackFrames` produces from `wRaw` for a 1-frame track. -/
def wOut : List FeatureFrame :=
  [buildFrame 0 [0] [0] [0] [0] [0] [0] [0] [0] [] [] []]

/-!
## Theorems
-/

theorem optionMapList_forall₂ {α β : Type} (f : α → Option β) :
    ∀ (l : List α) (l' : List β), optionMapList f l = some l' →
      List.Forall₂ (fun a b => f a = some b) l l'
  | [], l', h => by
    simp only [optionMapList, Option.some.injEq] at h
    rw [← h]; exact List.Forall₂.nil
  | a :: l, l', h => by
    simp only [optionMapList] at h
    cases hfa : f a with
    | none => rw [hfa] at h; exact absurd h (by simp)
    | some b =>
      rw [hfa] at h
      cases hrec : optionMapList f l with
      | none => rw [hrec] at h; exact absurd h (by simp)
      | some tl =>
        rw [hrec] at h
        simp only [Option.some.injEq] at h
        rw [← h]
        exact List.Forall₂.cons hfa (optionMapList_forall₂ f l tl hrec)

theorem pad_or_trim_spec {α : Type} (arr : List α) (n : ℕ) (res : List α)
    (h : pad_or_trim arr n = some res) :
    res.length = n ∧
    (n ≤ arr.length → res = arr.take n) ∧
    (∀ v, arr.getLast? = some v → arr.length < n →
      res = arr ++ List.replicate (n - arr.length) v) := by
  unfold pad_or_trim at h
  by_cases hle : n ≤ arr.length
  · rw [if_pos hle] at h
    injection h with h
    subst h
    refine ⟨?_, fun _ => rfl, fun v _ hlt => absurd hlt (by omega)⟩
    simp only [List.length_take]
    omega
  · rw [if_neg hle] at h
    cases hlast : arr.getLast? with
    | none => rw [hlast] at h; exact absurd h (by simp)
    | some v =>
      rw [hlast] at h
      injection h with h
      subst h
      refine ⟨?_, fun hc => absurd hc hle, ?_⟩
      · simp only [List.length_append, List.length_replicate]
        omega
      · intro w hw _
        injection hw with hvw
        rw [hvw]

theorem pad_or_trim_total {α : Type} (arr : List α) (n : ℕ) (h : arr ≠ []) :
    ∃ res, pad_or_trim arr n = some res := by
  unfold pad_or_trim
  by_cases hle : n ≤ arr.length
  · exact ⟨arr.take n, by rw [if_pos hle]⟩
  · rw [if_neg hle]
    cases hlast : arr.getLast? with
    | none => exact absurd (List.getLast?_eq_none_iff.mp hlast) h
    | some v => exact ⟨_, rfl⟩

/-- C1: for every track, the per-frame output sequence has exactly
`ceil(duration * fps)` entries; every feature stream, whatever its native
length, is reconciled to this canonical count by truncating from the end if
longer and edge-padding (appending copies of its last value) if shorter, and
2-D streams are aligned the same way along the frame axis. -/
theorem c1_frame_alignment (duration : ℚ) (raw : RawStreams)
    (out : List FeatureFrame) (h : trackFrames duration raw = some out) :
    out.length = nFrames duration ∧
    (∀ (arr : List ℚ) (n : ℕ) (res : List ℚ), pad_or_trim arr n = some res →
      res.length = n ∧
      (n ≤ arr.length → res = arr.take n) ∧
      (∀ v, arr.getLast? = some v → arr.length < n →
        res = arr ++ List.replicate (n - arr.length) v)) ∧
    (∀ (arr : List ℚ) (n : ℕ), arr ≠ [] → ∃ res, pad_or_trim arr n = some res) ∧
    (∀ (m : List (List ℚ)) (n : ℕ) (res : List (List ℚ)),
      pad_or_trim_2d m n = some res →
      List.Forall₂ (fun row prow => pad_or_trim row n = some prow) m res) := by
  refine ⟨?_, fun arr n res hp => pad_or_trim_spec arr n res hp,
    fun arr n hne => pad_or_trim_total arr n hne,
    fun m n res hp => optionMapList_forall₂ _ m res hp⟩
  unfold trackFrames at h
  split at h
  · simp only [Option.some.injEq] at h
    rw [← h]
    simp
  · cases h

theorem c1_frame_alignment_witness :
    wOut.length = nFrames (1/30) ∧
    (∀ (arr : List ℚ) (n : ℕ) (res : List ℚ), pad_or_trim arr n = some res →
      res.length = n ∧
      (n ≤ arr.length → res = arr.take n) ∧
      (∀ v, arr.getLast? = some v → arr.length < n →
        res = arr ++ List.replicate (n - arr.length) v)) ∧
    (∀ (arr : List ℚ) (n : ℕ), arr ≠ [] → ∃ res, pad_or_trim arr n = some res) ∧
    (∀ (m : List (List ℚ)) (n : ℕ) (res : List (List ℚ)),
      pad_or_trim_2d m n = some res →
      List.Forall₂ (fun row prow => pad_or_trim row n = some prow) m res) :=
  c1_frame_alignment (1/30) wRaw wOut (by
    have hn : nFrames (1/30) = 1 := by norm_num [nFrames, FPS]
    show trackFrames (1/30) wRaw = some wOut
    simp only [trackFrames, wRaw, hn]
    simp [pad_or_trim, pad_or_trim_2d, optionMapList, wOut, List.range_succ])

/-- C4 (code bug): for a track whose frame count yields a single coarse
window (here `totalFrames = 150`, and any `totalFrames < 300`), the code
computes `n_segs = 1` but requests `n_clusters = max(2, 1 - 1) = 2` clusters
from `AgglomerativeClustering` on one sample, which raises `ValueError`;
section detection therefore fails for every clustering outcome instead of
returning the single section `[0, totalFrames)` the spec describes. -/
theorem c4_single_window_fails :
    nSegs 150 = 1 ∧ nClusters (nSegs 150) = 2 ∧
    ∀ (rms : List ℚ) (labels : List ℤ), detect_sections 150 rms labels = none := by
  have h1 : nSegs 150 = 1 := by decide
  have h2 : nClusters 1 = 2 := by decide
  refine ⟨h1, by rw [h1]; exact h2, fun rms labels => ?_⟩
  have hcond : ¬(labels.length = nSegs 150 ∧ nClusters (nSegs 150) ≤ nSegs 150) := by
    rw [h1]
    rintro ⟨-, hle⟩
    rw [h2] at hle
    omega
  unfold detect_sections
  rw [if_neg hcond]

/-- C5 counterexample: at 3 windows the code's cluster count is 2 while the
claimed formula (`clamp(round(numWindows / 4), 3, 12)`, reduced only when
strictly fewer windows than target clusters exist) gives 3; at 15 windows
the code gives 3 (floor division) while the claimed formula gives 4
(`round(3.75) = 4`). -/
theorem c5_counterexample :
    nClusters 3 ≠ specClusterCount 3 ∧ nClusters 15 ≠ specClusterCount 15 := by
  have ha : nClusters 3 = 2 := by decide
  have hb : nClusters 15 = 3 := by decide
  have hc : specClusterCount 3 = 3 := by
    norm_num [specClusterCount, pythonRound]
    decide
  have hd : specClusterCount 15 = 4 := by
    norm_num [specClusterCount, pythonRound]
    decide
  rw [ha, hb, hc, hd]
  exact ⟨by decide, by decide⟩

/-- C5 (amended): for every number of coarse windows `numWindows ≥ 1`, the
target cluster count equals `min(max(3, numWindows // 4), 12)` (floor
division, not rounding), and it is reduced to `max(2, numWindows - 1)`
whenever `numWindows` is at most (not only strictly below) that target;
consequently the count always lies in `[2, 12]` and no reduction happens
beyond 12 windows. -/
theorem c5_cluster_count (n : ℕ) (h : 1 ≤ n) :
    nClusters n =
      (if n ≤ min (max 3 (n / 4)) 12 then max 2 (n - 1)
       else min (max 3 (n / 4)) 12) ∧
    2 ≤ nClusters n ∧ nClusters n ≤ 12 ∧
    (13 ≤ n → nClusters n = min (max 3 (n / 4)) 12) := by
  have hdef : nClusters n =
      if n ≤ min (max 3 (n / 4)) 12 then max 2 (n - 1)
      else min (max 3 (n / 4)) 12 := rfl
  refine ⟨hdef, ?_, ?_, ?_⟩
  · rw [hdef]; split <;> omega
  · rw [hdef]; split <;> omega
  · intro h13; rw [hdef]; split <;> omega

theorem c5_cluster_count_witness :
    1 ≤ 8 ∧
    (nClusters 8 =
      (if 8 ≤ min (max 3 (8 / 4)) 12 then max 2 (8 - 1)
       else min (max 3 (8 / 4)) 12) ∧
    2 ≤ nClusters 8 ∧ nClusters 8 ≤ 12 ∧
    (13 ≤ 8 → nClusters 8 = min (max 3 (8 / 4)) 12)) :=
  ⟨by decide, c5_cluster_count 8 (by decide)⟩

/-- C6: `normalize` maps a nonempty stream elementwise to
`(x - min) / (max - min)` with every output in `[0, 1]`, and returns the
all-zero vector whenever `max - min` is below the fixed epsilon — in
particular for every constant stream. -/
theorem c6_normalize (arr : List ℚ) (h : arr ≠ []) :
    ∃ out, normalize arr = some out ∧
      out.length = arr.length ∧
      (∀ x ∈ out, 0 ≤ x ∧ x ≤ 1) ∧
      (listMax arr - listMin arr < normEps → out = List.replicate arr.length 0) ∧
      (normEps ≤ listMax arr - listMin arr →
        out = arr.map fun x => (x - listMin arr) / (listMax arr - listMin arr)) ∧
      (∀ c : ℚ, arr = List.replicate arr.length c →
        out = List.replicate arr.length 0) := by
  cases arr with
  | nil => exact absurd rfl h
  | cons a rest =>
    by_cases hd : listMax (a :: rest) - listMin (a :: rest) < normEps
    · refine ⟨List.replicate (a :: rest).length 0, ?_, by simp, ?_, fun _ => rfl,
        fun hge => absurd hd (not_lt.mpr hge), fun c _ => rfl⟩
      · simp only [normalize]
        rw [if_pos hd]
      · intro x hx
        rw [List.eq_of_mem_replicate hx]
        constructor <;> norm_num
    · have hge : normEps ≤ listMax (a :: rest) - listMin (a :: rest) := not_lt.mp hd
      have hpos : (0 : ℚ) < listMax (a :: rest) - listMin (a :: rest) :=
        lt_of_lt_of_le (by norm_num [normEps]) hge
      refine ⟨_, ?_, by simp, ?_, fun hlt => absurd hlt hd, fun _ => rfl,
        fun c hc => ?_⟩
      · simp only [normalize]
        rw [if_neg hd]
      · intro x hx
        simp only [List.mem_map] at hx
        obtain ⟨y, hy, rfl⟩ := hx
        have h1 : listMin (a :: rest) ≤ y := listMin_le _ y hy
        have h2 : y ≤ listMax (a :: rest) := le_listMax _ y hy
        constructor
        · exact div_nonneg (by linarith) (le_of_lt hpos)
        · rw [div_le_one hpos]; linarith
      · exfalso
        have hlen : (a :: rest).length = rest.length + 1 := by simp
        rw [hlen] at hc
        have hmn : listMin (a :: rest) = c := by
          rw [hc]; exact listMin_replicate rest.length c
        have hmx : listMax (a :: rest) = c := by
          rw [hc]; exact listMax_replicate rest.length c
        exact hd (by rw [hmn, hmx]; norm_num [normEps])

theorem c6_normalize_witness :
    ∃ out, normalize [0, 1] = some out ∧
      out.length = ([0, 1] : List ℚ).length ∧
      (∀ x ∈ out, 0 ≤ x ∧ x ≤ 1) ∧
      (listMax [0, 1] - listMin [0, 1] < normEps →
        out = List.replicate ([0, 1] : List ℚ).length 0) ∧
      (normEps ≤ listMax [0, 1] - listMin [0, 1] →
        out = ([0, 1] : List ℚ).map fun x =>
          (x - listMin [0, 1]) / (listMax [0, 1] - listMin [0, 1])) ∧
      (∀ c : ℚ, ([0, 1] : List ℚ) = List.replicate ([0, 1] : List ℚ).length c →
        out = List.replicate ([0, 1] : List ℚ).length 0) :=
  c6_normalize [0, 1] (by simp)

theorem mergeAux_spec (nF : ℕ) (rms : List ℚ) :
    ∀ (rest : List ℤ) (i : ℕ) (cur : ℤ) (secStart k : ℕ),
      secStart * segHop ≤ nF →
      secStart < i →
      (∀ j, i ≤ j → j < i + rest.length → j * segHop ≤ nF) →
      mergeAux nF rms rest i cur secStart k ≠ [] ∧
      (mergeAux nF rms rest i cur secStart k).head?.map Section.frameStart =
        some (secStart * segHop) ∧
      List.Chain' (fun a b => a.frameEnd = b.frameStart)
        (mergeAux nF rms rest i cur secStart k) ∧
      (mergeAux nF rms rest i cur secStart k).getLast?.map Section.frameEnd =
        some nF ∧
      (∀ s ∈ mergeAux nF rms rest i cur secStart k, s.frameStart ≤ s.frameEnd)
  | [], i, cur, secStart, k => by
    intro h1 h2 _h3
    simp only [mergeAux]
    refine ⟨by simp, by simp [buildSection], List.chain'_singleton _,
      by simp [buildSection], ?_⟩
    intro s hs
    simp only [List.mem_singleton] at hs
    subst hs
    simpa [buildSection] using h1
  | l :: rest, i, cur, secStart, k => by
    intro h1 h2 h3
    by_cases hl : l = cur
    · have ih := mergeAux_spec nF rms rest (i + 1) cur secStart k h1 (by omega)
        (fun j hj1 hj2 => h3 j (by omega) (by simp only [List.length_cons]; omega))
      simpa only [mergeAux, if_pos hl] using ih
    · have hiF : i * segHop ≤ nF :=
        h3 i (le_refl i) (by simp only [List.length_cons]; omega)
      obtain ⟨ihne, ihhead, ihchain, ihlast, ihmem⟩ :=
        mergeAux_spec nF rms rest (i + 1) l i (k + 1) hiF (by omega)
          (fun j hj1 hj2 => h3 j (by omega) (by simp only [List.length_cons]; omega))
      have hmin : min (i * segHop) nF = i * segHop := min_eq_left hiF
      simp only [mergeAux, if_neg hl]
      refine ⟨by simp, by simp [buildSection], ?_, ?_, ?_⟩
      · rw [List.chain'_cons']
        refine ⟨?_, ihchain⟩
        intro y hy
        cases hss : mergeAux nF rms rest (i + 1) l i (k + 1) with
        | nil => rw [hss] at hy; simp at hy
        | cons z tl =>
          rw [hss] at hy ihhead
          simp only [List.head?_cons, Option.mem_def, Option.some.injEq] at hy
          simp only [List.head?_cons, Option.map_some', Option.some.injEq] at ihhead
          subst hy
          simp [buildSection, hmin, ihhead]
      · cases hss : mergeAux nF rms rest (i + 1) l i (k + 1) with
        | nil => exact absurd hss ihne
        | cons z tl =>
          rw [hss] at ihlast
          rw [List.getLast?_cons_cons]
          exact ihlast
      · intro s hs
        rcases List.mem_cons.mp hs with rfl | hs
        · have : secStart * segHop ≤ i * segHop :=
            Nat.mul_le_mul_right _ (le_of_lt h2)
          simp [buildSection, hmin]
          omega
        · exact ihmem s hs

theorem chain'_frameStart_le {l : List Section}
    (hc : List.Chain' (fun a b => a.frameEnd = b.frameStart) l)
    (hm : ∀ s ∈ l, s.frameStart ≤ s.frameEnd) :
    List.Chain' (fun a b => a.frameStart ≤ b.frameStart) l := by
  induction l with
  | nil => simp
  | cons x tl ih =>
    cases tl with
    | nil => exact List.chain'_singleton x
    | cons y tl2 =>
      rw [List.chain'_cons] at hc ⊢
      obtain ⟨hxy, hc2⟩ := hc
      refine ⟨?_, ih hc2 (fun s hs => hm s (List.mem_cons_of_mem x hs))⟩
      have hx := hm x (List.mem_cons_self x (y :: tl2))
      rw [hxy] at hx
      exact hx

/-- C2: for every track and every outcome of the clustering step, the
sections produced by `detect_sections` are nonempty, start at frame 0, are
chained (each section's `frameStart` equals the previous one's `frameEnd`),
end at `totalFrames`, have `frameStart ≤ frameEnd`, and are ordered by
`frameStart` — so the half-open ranges exactly cover `[0, totalFrames)`
with no gaps or overlaps. -/
theorem c2_sections_cover (nF : ℕ) (rms : List ℚ) (labels : List ℤ)
    (ss : List Section) (h : detect_sections nF rms labels = some ss) :
    ss ≠ [] ∧
    ss.head?.map Section.frameStart = some 0 ∧
    List.Chain' (fun a b => a.frameEnd = b.frameStart) ss ∧
    ss.getLast?.map Section.frameEnd = some nF ∧
    (∀ s ∈ ss, s.frameStart ≤ s.frameEnd) ∧
    List.Pairwise (fun a b => a.frameStart ≤ b.frameStart) ss := by
  unfold detect_sections at h
  split at h
  case isFalse => exact absurd h (by simp)
  case isTrue hcond =>
    obtain ⟨hlen, -⟩ := hcond
    cases labels with
    | nil => exact absurd h (by simp)
    | cons l rest =>
      injection h with h
      have h3 : ∀ j, 1 ≤ j → j < 1 + rest.length → j * segHop ≤ nF := by
        intro j hj1 hj2
        have hlen' : rest.length + 1 = nSegs nF := by simpa using hlen
        unfold nSegs at hlen'
        have hdm := Nat.div_mul_le_self nF segHop
        have hseg : segHop = 150 := rfl
        rw [hseg] at hlen' hdm ⊢
        omega
      obtain ⟨hne, hhead, hchain, hlast, hmem⟩ :=
        mergeAux_spec nF rms rest 1 l 0 0
          (by rw [Nat.zero_mul]; exact Nat.zero_le nF) (by omega) h3
      subst h
      refine ⟨hne, by simpa using hhead, hchain, hlast, hmem, ?_⟩
      have hchainle := chain'_frameStart_le hchain hmem
      exact (@List.chain'_iff_pairwise _ _ sectionLeTrans _).mp hchainle

theorem c2_sections_cover_witness :
    (mergeAux 300 [] [1] 1 0 0 0) ≠ [] ∧
    (mergeAux 300 [] [1] 1 0 0 0).head?.map Section.frameStart = some 0 ∧
    List.Chain' (fun a b => a.frameEnd = b.frameStart)
      (mergeAux 300 [] [1] 1 0 0 0) ∧
    (mergeAux 300 [] [1] 1 0 0 0).getLast?.map Section.frameEnd = some 300 ∧
    (∀ s ∈ mergeAux 300 [] [1] 1 0 0 0, s.frameStart ≤ s.frameEnd) ∧
    List.Pairwise (fun a b => a.frameStart ≤ b.frameStart)
      (mergeAux 300 [] [1] 1 0 0 0) :=
  c2_sections_cover 300 [] [0, 1] (mergeAux 300 [] [1] 1 0 0 0) (by
    unfold detect_sections
    rw [if_pos (by constructor <;> decide)])

theorem pythonRound_intCast (z : ℤ) : pythonRound (z : ℚ) = z := by
  unfold pythonRound
  norm_num

theorem roundTo_idem (d e : ℕ) (h : d ≤ e) (q : ℚ) :
    roundTo e (roundTo d q) = roundTo d q := by
  unfold roundTo
  have h10d : ((10:ℚ)) ^ d ≠ 0 := by positivity
  have h10e : ((10:ℚ)) ^ e ≠ 0 := by positivity
  have hp : (10:ℚ) ^ e = 10 ^ d * 10 ^ (e - d) := by
    rw [← pow_add]
    congr 1
    omega
  have harg : ((pythonRound (q * 10 ^ d) : ℚ) / 10 ^ d) * 10 ^ e
      = ((pythonRound (q * 10 ^ d) * 10 ^ (e - d) : ℤ) : ℚ) := by
    push_cast
    rw [hp]
    field_simp
    ring
  rw [harg, pythonRound_intCast]
  push_cast
  rw [hp]
  field_simp
  ring

/-- C8 counterexample: the serialized `meta.duration` is the raw duration
rounded to 2 decimal places, not 4: for a track of duration `0.1234` seconds
the output stores `0.12`, while rounding to exactly 4 places would keep
`0.1234`. -/
theorem c8_counterexample :
    (mkMeta "t" (1234/10000) 0 0 []).duration ≠ roundTo 4 (1234/10000) := by
  have h1 : (mkMeta "t" (1234/10000) 0 0 []).duration = roundTo 2 (1234/10000) := rfl
  rw [h1]
  norm_num [roundTo, pythonRound]

/-- C8 (amended): per-frame scalar values are rounded to exactly 4 decimal
places and chroma/contrast vector elements to exactly 3 (each is a fixed
point of a further rounding at its precision); the metadata scalars use
coarser precision — `duration` is rounded to 2 places, `tempo` to 1, and a
section's `avgEnergy` to 3 — and all remain fixed points of a 4-place
rounding. -/
theorem c8_rounding (duration : ℚ) (raw : RawStreams) (out : List FeatureFrame)
    (h : trackFrames duration raw = some out) :
    (∀ fr ∈ out,
      roundTo 4 fr.rms = fr.rms ∧ roundTo 4 fr.centroid = fr.centroid ∧
      roundTo 4 fr.onset = fr.onset ∧ roundTo 4 fr.sub = fr.sub ∧
      roundTo 4 fr.low = fr.low ∧ roundTo 4 fr.mid = fr.mid ∧
      roundTo 4 fr.high = fr.high ∧ roundTo 4 fr.flatness = fr.flatness ∧
      (∀ x ∈ fr.chroma, roundTo 3 x = x) ∧
      (∀ x ∈ fr.contrast, roundTo 3 x = x)) ∧
    (∀ (src : String) (dur tmp : ℚ) (n : ℕ) (secs : List Section),
      (mkMeta src dur tmp n secs).duration = roundTo 2 dur ∧
      (mkMeta src dur tmp n secs).tempo = roundTo 1 tmp ∧
      roundTo 4 (mkMeta src dur tmp n secs).duration =
        (mkMeta src dur tmp n secs).duration ∧
      roundTo 4 (mkMeta src dur tmp n secs).tempo =
        (mkMeta src dur tmp n secs).tempo) ∧
    (∀ (rmsn : List ℚ) (k a b : ℕ),
      roundTo 3 (buildSection rmsn k a b).avgEnergy =
        (buildSection rmsn k a b).avgEnergy) := by
  refine ⟨?_, ?_, ?_⟩
  · intro fr hfr
    unfold trackFrames at h
    split at h
    · injection h with h
      subst h
      simp only [List.mem_map] at hfr
      obtain ⟨i, -, rfl⟩ := hfr
      refine ⟨roundTo_idem 4 4 le_rfl _, roundTo_idem 4 4 le_rfl _,
        roundTo_idem 4 4 le_rfl _, roundTo_idem 4 4 le_rfl _,
        roundTo_idem 4 4 le_rfl _, roundTo_idem 4 4 le_rfl _,
        roundTo_idem 4 4 le_rfl _, roundTo_idem 4 4 le_rfl _, ?_, ?_⟩
      · intro x hx
        simp only [buildFrame, List.mem_map] at hx
        obtain ⟨c, -, rfl⟩ := hx
        exact roundTo_idem 3 3 le_rfl _
      · intro x hx
        simp only [buildFrame, List.mem_map] at hx
        obtain ⟨c, -, rfl⟩ := hx
        exact roundTo_idem 3 3 le_rfl _
    · exact absurd h (by simp)
  · intro src dur tmp n secs
    exact ⟨rfl, rfl, roundTo_idem 2 4 (by omega) _, roundTo_idem 1 4 (by omega) _⟩
  · intro rmsn k a b
    exact roundTo_idem 3 3 le_rfl _

theorem c8_rounding_witness :
    (∀ fr ∈ wOut,
      roundTo 4 fr.rms = fr.rms ∧ roundTo 4 fr.centroid = fr.centroid ∧
      roundTo 4 fr.onset = fr.onset ∧ roundTo 4 fr.sub = fr.sub ∧
      roundTo 4 fr.low = fr.low ∧ roundTo 4 fr.mid = fr.mid ∧
      roundTo 4 fr.high = fr.high ∧ roundTo 4 fr.flatness = fr.flatness ∧
      (∀ x ∈ fr.chroma, roundTo 3 x = x) ∧
      (∀ x ∈ fr.contrast, roundTo 3 x = x)) ∧
    (∀ (src : String) (dur tmp : ℚ) (n : ℕ) (secs : List Section),
      (mkMeta src dur tmp n secs).duration = roundTo 2 dur ∧
      (mkMeta src dur tmp n secs).tempo = roundTo 1 tmp ∧
      roundTo 4 (mkMeta src dur tmp n secs).duration =
        (mkMeta src dur tmp n secs).duration ∧
      roundTo 4 (mkMeta src dur tmp n secs).tempo =
        (mkMeta src dur tmp n secs).tempo) ∧
    (∀ (rmsn : List ℚ) (k a b : ℕ),
      roundTo 3 (buildSection rmsn k a b).avgEnergy =
        (buildSection rmsn k a b).avgEnergy) :=
  c8_rounding (1/30) wRaw wOut (by
    have hn : nFrames (1/30) = 1 := by norm_num [nFrames, FPS]
    show trackFrames (1/30) wRaw = some wOut
    simp only [trackFrames, wRaw, hn]
    simp [pad_or_trim, pad_or_trim_2d, optionMapList, wOut, List.range_succ])

theorem processSongs_missing_step (resume : Bool) (store : Store) (s : SongInput)
    (rest : List SongInput) (offset : ℕ) (dur : ℚ) (hs : s.audioPresent = false) :
    processSongs resume store (s :: rest) offset dur =
      (⟨s.trackId, offset, offset, 0, true⟩ ::
        (processSongs resume store rest offset dur).1,
       (processSongs resume store rest offset dur).2) := by
  simp only [processSongs, hs]
  rfl

theorem processSongs_hit_step (resume : Bool) (store : Store) (s : SongInput)
    (rest : List SongInput) (offset : ℕ) (dur : ℚ) (tf : ℕ) (td : ℚ)
    (hs : s.audioPresent = true)
    (hr : (if resume then store s.trackId else none) = some (tf, td)) :
    processSongs resume store (s :: rest) offset dur =
      (⟨s.trackId, offset, offset + tf, tf, false⟩ ::
        (processSongs resume store rest (offset + tf) (dur + td)).1,
       (processSongs resume store rest (offset + tf) (dur + td)).2) := by
  simp only [processSongs, hs, hr]
  exact if_pos trivial

theorem processSongs_fresh_step (resume : Bool) (store : Store) (s : SongInput)
    (rest : List SongInput) (offset : ℕ) (dur : ℚ)
    (hs : s.audioPresent = true)
    (hr : (if resume then store s.trackId else none) = none) :
    processSongs resume store (s :: rest) offset dur =
      (⟨s.trackId, offset, offset + s.frames, s.frames, false⟩ ::
        (processSongs resume
          (fun id => if id = s.trackId then some (s.frames, s.duration) else store id)
          rest (offset + s.frames) (dur + s.duration)).1,
       (processSongs resume
          (fun id => if id = s.trackId then some (s.frames, s.duration) else store id)
          rest (offset + s.frames) (dur + s.duration)).2) := by
  simp only [processSongs, hs, hr]
  exact if_pos trivial

theorem processSongs_spec (resume : Bool) (songs : List SongInput) :
    ∀ (store : Store) (offset : ℕ) (dur : ℚ),
      ((processSongs resume store songs offset dur).1.map TimelineEntry.trackId
        = songs.map SongInput.trackId) ∧
      (∀ e, (processSongs resume store songs offset dur).1.head? = some e →
        e.globalFrameStart = offset) ∧
      List.Chain' (fun a b => a.globalFrameEnd = b.globalFrameStart)
        (processSongs resume store songs offset dur).1 ∧
      ((processSongs resume store songs offset dur).2.1 =
        offset + ((processSongs resume store songs offset dur).1.map
          TimelineEntry.totalFrames).sum) ∧
      List.Forall₂ (fun s e =>
          (s.audioPresent = false → e.missing = true ∧
            e.globalFrameStart = e.globalFrameEnd ∧ e.totalFrames = 0) ∧
          (s.audioPresent = true → e.missing = false))
        songs (processSongs resume store songs offset dur).1 := by
  induction songs with
  | nil =>
    intro store offset dur
    simp [processSongs]
  | cons s rest ih =>
    intro store offset dur
    by_cases hs : s.audioPresent = true
    · cases hr : (if resume then store s.trackId else none) with
      | some p =>
        obtain ⟨tf, td⟩ := p
        rw [processSongs_hit_step resume store s rest offset dur tf td hs hr]
        obtain ⟨ih1, ih2, ih3, ih4, ih5⟩ := ih store (offset + tf) (dur + td)
        refine ⟨by simp [ih1], ?_, ?_, ?_, ?_⟩
        · intro e he
          simp only [List.head?_cons, Option.some.injEq] at he
          rw [← he]
        · rw [List.chain'_cons']
          exact ⟨fun y hy => (ih2 y (by simpa using hy)).symm, ih3⟩
        · simp only [List.map_cons, List.sum_cons]
          rw [ih4]
          omega
        · exact List.Forall₂.cons
            ⟨fun hc => absurd hs (by simp [hc]), fun _ => rfl⟩ ih5
      | none =>
        rw [processSongs_fresh_step resume store s rest offset dur hs hr]
        obtain ⟨ih1, ih2, ih3, ih4, ih5⟩ :=
          ih (fun id => if id = s.trackId then some (s.frames, s.duration) else store id)
            (offset + s.frames) (dur + s.duration)
        refine ⟨by simp [ih1], ?_, ?_, ?_, ?_⟩
        · intro e he
          simp only [List.head?_cons, Option.some.injEq] at he
          rw [← he]
        · rw [List.chain'_cons']
          exact ⟨fun y hy => (ih2 y (by simpa using hy)).symm, ih3⟩
        · simp only [List.map_cons, List.sum_cons]
          rw [ih4]
          omega
        · exact List.Forall₂.cons
            ⟨fun hc => absurd hs (by simp [hc]), fun _ => rfl⟩ ih5
    · have hsf : s.audioPresent = false := by simpa using hs
      rw [processSongs_missing_step resume store s rest offset dur hsf]
      obtain ⟨ih1, ih2, ih3, ih4, ih5⟩ := ih store offset dur
      refine ⟨by simp [ih1], ?_, ?_, ?_, ?_⟩
      · intro e he
        simp only [List.head?_cons, Option.some.injEq] at he
        rw [← he]
      · rw [List.chain'_cons']
        exact ⟨fun y hy => (ih2 y (by simpa using hy)).symm, ih3⟩
      · simp only [List.map_cons, List.sum_cons]
        rw [ih4]
        omega
      · exact List.Forall₂.cons
          ⟨fun _ => ⟨rfl, rfl, rfl⟩, fun hc => absurd hc (by simp [hsf])⟩ ih5

theorem processSongs_false_store (songs : List SongInput) :
    ∀ (st1 st2 : Store) (offset : ℕ) (dur : ℚ),
      (processSongs false st1 songs offset dur).1 =
        (processSongs false st2 songs offset dur).1 ∧
      (processSongs false st1 songs offset dur).2.1 =
        (processSongs false st2 songs offset dur).2.1 ∧
      (processSongs false st1 songs offset dur).2.2.1 =
        (processSongs false st2 songs offset dur).2.2.1 := by
  induction songs with
  | nil =>
    intro st1 st2 offset dur
    simp [processSongs]
  | cons s rest ih =>
    intro st1 st2 offset dur
    by_cases hs : s.audioPresent = true
    · rw [processSongs_fresh_step false st1 s rest offset dur hs rfl,
        processSongs_fresh_step false st2 s rest offset dur hs rfl]
      obtain ⟨ih1, ih2, ih3⟩ :=
        ih (fun id => if id = s.trackId then some (s.frames, s.duration) else st1 id)
          (fun id => if id = s.trackId then some (s.frames, s.duration) else st2 id)
          (offset + s.frames) (dur + s.duration)
      exact ⟨by rw [ih1], by simpa using ih2, by simpa using ih3⟩
    · have hsf : s.audioPresent = false := by simpa using hs
      rw [processSongs_missing_step false st1 s rest offset dur hsf,
        processSongs_missing_step false st2 s rest offset dur hsf]
      obtain ⟨ih1, ih2, ih3⟩ := ih st1 st2 offset dur
      exact ⟨by rw [ih1], by simpa using ih2, by simpa using ih3⟩

theorem processSongs_store_stable (resume : Bool) (songs : List SongInput) :
    ∀ (store : Store) (offset : ℕ) (dur : ℚ) (id : String),
      id ∉ songs.map SongInput.trackId →
      (processSongs resume store songs offset dur).2.2.2 id = store id := by
  induction songs with
  | nil =>
    intro store offset dur id _
    simp [processSongs]
  | cons s rest ih =>
    intro store offset dur id hid
    have hid1 : id ≠ s.trackId := by
      intro hc
      exact hid (by simp [hc])
    have hid2 : id ∉ rest.map SongInput.trackId := by
      intro hc
      exact hid (by simp [hc])
    by_cases hs : s.audioPresent = true
    · cases hr : (if resume then store s.trackId else none) with
      | some p =>
        obtain ⟨tf, td⟩ := p
        rw [processSongs_hit_step resume store s rest offset dur tf td hs hr]
        exact ih store (offset + tf) (dur + td) id hid2
      | none =>
        rw [processSongs_fresh_step resume store s rest offset dur hs hr]
        have := ih
          (fun i => if i = s.trackId then some (s.frames, s.duration) else store i)
          (offset + s.frames) (dur + s.duration) id hid2
        simpa [hid1] using this
    · have hsf : s.audioPresent = false := by simpa using hs
      rw [processSongs_missing_step resume store s rest offset dur hsf]
      exact ih store offset dur id hid2

theorem processSongs_final_store (songs : List SongInput) :
    ∀ (store : Store) (offset : ℕ) (dur : ℚ),
      (songs.map SongInput.trackId).Nodup →
      ∀ s ∈ songs, s.audioPresent = true →
        (processSongs false store songs offset dur).2.2.2 s.trackId =
          some (s.frames, s.duration) := by
  induction songs with
  | nil =>
    intro store offset dur _ s hs
    cases hs
  | cons s0 rest ih =>
    intro store offset dur hnd s hs hp
    have hd : (∀ x ∈ rest, ¬x.trackId = s0.trackId) ∧
        (rest.map SongInput.trackId).Nodup := by simpa using hnd
    have hnd1 : s0.trackId ∉ rest.map SongInput.trackId := by
      simp only [List.mem_map]
      rintro ⟨x, hx, hxe⟩
      exact hd.1 x hx hxe
    have hnd2 : (rest.map SongInput.trackId).Nodup := hd.2
    by_cases hs0 : s0.audioPresent = true
    · rw [processSongs_fresh_step false store s0 rest offset dur hs0 rfl]
      rcases List.mem_cons.mp hs with rfl | hmem
      · have := processSongs_store_stable false rest
          (fun i => if i = s.trackId then some (s.frames, s.duration) else store i)
          (offset + s.frames) (dur + s.duration) s.trackId hnd1
        simpa using this
      · exact ih
          (fun i => if i = s0.trackId then some (s0.frames, s0.duration) else store i)
          (offset + s0.frames) (dur + s0.duration) hnd2 s hmem hp
    · have hsf : s0.audioPresent = false := by simpa using hs0
      rw [processSongs_missing_step false store s0 rest offset dur hsf]
      rcases List.mem_cons.mp hs with rfl | hmem
      · exact absurd hp hs0
      · exact ih store offset dur hnd2 s hmem hp

theorem processSongs_resume_eq (songs : List SongInput) :
    ∀ (store : Store) (offset : ℕ) (dur : ℚ),
      (∀ s ∈ songs, s.audioPresent = true →
        store s.trackId = some (s.frames, s.duration)) →
      (processSongs true store songs offset dur).1 =
        (processSongs false store songs offset dur).1 ∧
      (processSongs true store songs offset dur).2.1 =
        (processSongs false store songs offset dur).2.1 ∧
      (processSongs true store songs offset dur).2.2.1 =
        (processSongs false store songs offset dur).2.2.1 := by
  induction songs with
  | nil =>
    intro store offset dur _
    simp [processSongs]
  | cons s rest ih =>
    intro store offset dur hst
    have hstrest : ∀ t ∈ rest, t.audioPresent = true →
        store t.trackId = some (t.frames, t.duration) :=
      fun t ht => hst t (List.mem_cons_of_mem s ht)
    by_cases hs : s.audioPresent = true
    · have hhit : (if true then store s.trackId else none) =
          some (s.frames, s.duration) := by
        simpa using hst s (List.mem_cons_self s rest) hs
      rw [processSongs_hit_step true store s rest offset dur s.frames s.duration hs hhit,
        processSongs_fresh_step false store s rest offset dur hs rfl]
      obtain ⟨ih1, ih2, ih3⟩ := ih store (offset + s.frames) (dur + s.duration) hstrest
      obtain ⟨hb1, hb2, hb3⟩ := processSongs_false_store rest store
        (fun id => if id = s.trackId then some (s.frames, s.duration) else store id)
        (offset + s.frames) (dur + s.duration)
      refine ⟨?_, ?_, ?_⟩
      · simp only [List.cons.injEq]
        exact ⟨trivial, ih1.trans hb1⟩
      · simpa using ih2.trans hb2
      · simpa using ih3.trans hb3
    · have hsf : s.audioPresent = false := by simpa using hs
      rw [processSongs_missing_step true store s rest offset dur hsf,
        processSongs_missing_step false store s rest offset dur hsf]
      obtain ⟨ih1, ih2, ih3⟩ := ih store offset dur hstrest
      exact ⟨by rw [ih1], by simpa using ih2, by simpa using ih3⟩

/-- C3: in the show timeline, entries appear in setlist order; consecutive
entries chain (`globalFrameStart` of entry `i` equals `globalFrameEnd` of
entry `i-1`, the first entry starting at the running offset); a missing
track's entry is zero-width with `totalFrames = 0` and advances neither the
running frame offset nor the accumulated duration; and the timeline's
`totalFrames` is the final running offset — the sum of the entries'
`totalFrames`, to which missing tracks contribute 0. -/
theorem c3_timeline_invariants (resume : Bool) (store : Store)
    (songs : List SongInput) (offset : ℕ) (dur : ℚ) (date : String) :
    ((processSongs resume store songs offset dur).1.map TimelineEntry.trackId
      = songs.map SongInput.trackId) ∧
    (∀ e, (processSongs resume store songs offset dur).1.head? = some e →
      e.globalFrameStart = offset) ∧
    List.Chain' (fun a b => a.globalFrameEnd = b.globalFrameStart)
      (processSongs resume store songs offset dur).1 ∧
    ((processSongs resume store songs offset dur).2.1 =
      offset + ((processSongs resume store songs offset dur).1.map
        TimelineEntry.totalFrames).sum) ∧
    List.Forall₂ (fun s e =>
        (s.audioPresent = false → e.missing = true ∧
          e.globalFrameStart = e.globalFrameEnd ∧ e.totalFrames = 0) ∧
        (s.audioPresent = true → e.missing = false))
      songs (processSongs resume store songs offset dur).1 ∧
    (∀ s : SongInput, s.audioPresent = false →
      processSongs resume store (s :: songs) offset dur =
        (⟨s.trackId, offset, offset, 0, true⟩ ::
          (processSongs resume store songs offset dur).1,
         (processSongs resume store songs offset dur).2)) ∧
    ((buildShow resume store date songs).1.totalFrames =
      (((buildShow resume store date songs).1.tracks).map
        TimelineEntry.totalFrames).sum) := by
  obtain ⟨h1, h2, h3, h4, h5⟩ := processSongs_spec resume songs store offset dur
  refine ⟨h1, h2, h3, h4, h5, ?_, ?_⟩
  · intro s hs
    exact processSongs_missing_step resume store s songs offset dur hs
  · obtain ⟨-, -, -, g4, -⟩ := processSongs_spec resume songs store 0 0
    simpa [buildShow] using g4

/-- C7: resume idempotence — running the batch once (fresh), then re-running
with `--resume` against the per-track analyses the first run persisted,
yields the same show timeline: same entries, same global offsets, same
`totalFrames` and `totalDuration`; the setlist's track ids are assumed
distinct. -/
theorem c7_resume_idempotent (date : String) (songs : List SongInput)
    (hnd : (songs.map SongInput.trackId).Nodup) :
    (buildShow true (buildShow false emptyStore date songs).2 date songs).1 =
      (buildShow false emptyStore date songs).1 := by
  have hst : ∀ s ∈ songs, s.audioPresent = true →
      (processSongs false emptyStore songs 0 0).2.2.2 s.trackId =
        some (s.frames, s.duration) :=
    fun s hs hp => processSongs_final_store songs emptyStore 0 0 hnd s hs hp
  obtain ⟨he, ho, hd⟩ := processSongs_resume_eq songs
    ((processSongs false emptyStore songs 0 0).2.2.2) 0 0 hst
  obtain ⟨be, bo, bd⟩ := processSongs_false_store songs
    ((processSongs false emptyStore songs 0 0).2.2.2) emptyStore 0 0
  simp only [buildShow]
  congr 1
  · exact ho.trans bo
  · exact congrArg (roundTo 2) (hd.trans bd)
  · exact he.trans be

theorem c7_resume_idempotent_witness :
    (buildShow true
        (buildShow false emptyStore "1977-05-08"
          [⟨"t01", true, 10, 5⟩, ⟨"t02", false, 7, 3⟩, ⟨"t03", true, 4, 2⟩]).2
        "1977-05-08"
        [⟨"t01", true, 10, 5⟩, ⟨"t02", false, 7, 3⟩, ⟨"t03", true, 4, 2⟩]).1 =
      (buildShow false emptyStore "1977-05-08"
        [⟨"t01", true, 10, 5⟩, ⟨"t02", false, 7, 3⟩, ⟨"t03", true, 4, 2⟩]).1 :=
  c7_resume_idempotent "1977-05-08"
    [⟨"t01", true, 10, 5⟩, ⟨"t02", false, 7, 3⟩, ⟨"t03", true, 4, 2⟩] (by decide)

/-- C9: a missing audio file makes the single-track pipeline fail with the
audio-load error condition, observable by the caller; the batch runner treats
the missing file as a recoverable per-track condition rather than a pipeline
failure: it still emits one timeline entry per song, the absent songs'
entries flagged missing and zero-width. -/
theorem c9_audio_load_error :
    (∀ r : ℕ × ℚ, analyze_track false r =
      Except.error AudioLoadError.fileNotFound) ∧
    (∀ (resume : Bool) (store : Store) (songs : List SongInput)
        (offset : ℕ) (dur : ℚ),
      (processSongs resume store songs offset dur).1.length = songs.length ∧
      List.Forall₂ (fun s e =>
          s.audioPresent = false → e.missing = true ∧
            e.globalFrameStart = e.globalFrameEnd ∧ e.totalFrames = 0)
        songs (processSongs resume store songs offset dur).1) := by
  refine ⟨fun r => rfl, fun resume store songs offset dur => ?_⟩
  obtain ⟨-, -, -, -, h5⟩ := processSongs_spec resume songs store offset dur
  exact ⟨h5.length_eq.symm, List.Forall₂.imp (fun a b hab => hab.1) h5⟩

/-- C10: the missing-audio check takes precedence over the resume check: when
a song's audio file is absent, the placeholder entry is emitted whatever the
resume flag and whatever the persisted store holds (the step neither reads
nor changes the store for that song), and the resume path — loading the
persisted `(totalFrames, duration)` — is taken only when the audio file is
present. -/
theorem c10_missing_precedence (resume : Bool) (store : Store) (s : SongInput)
    (rest : List SongInput) (offset : ℕ) (dur : ℚ) :
    (s.audioPresent = false →
      processSongs resume store (s :: rest) offset dur =
        (⟨s.trackId, offset, offset, 0, true⟩ ::
          (processSongs resume store rest offset dur).1,
         (processSongs resume store rest offset dur).2)) ∧
    (∀ (tf : ℕ) (td : ℚ), s.audioPresent = true →
      store s.trackId = some (tf, td) →
      processSongs true store (s :: rest) offset dur =
        (⟨s.trackId, offset, offset + tf, tf, false⟩ ::
          (processSongs true store rest (offset + tf) (dur + td)).1,
         (processSongs true store rest (offset + tf) (dur + td)).2)) :=
  ⟨fun hs => processSongs_missing_step resume store s rest offset dur hs,
   fun tf td hs hst => processSongs_hit_step true store s rest offset dur tf td hs
     (by simpa using hst)⟩

end DeadAir
